import Mathlib

/-!
Verification of the lead-generation pipeline (Google News scraper and
processors) against its specification.  Each Python stage that the claims
touch is shallowly embedded as executable Lean definitions; machine-level
effects (HTTP calls, the Gemini service, the file system) are made explicit
as parameters or returned values.
-/

set_option maxHeartbeats 1000000

/-! ## Python-style whitespace and string helpers -/

/-- Whitespace characters recognised by Python's str.strip and the re module
class backslash-s (ASCII range; the inputs handled by the pipeline are fed
through these predicates). -/
def isSpacePy (c : Char) : Bool :=
  c = ' ' || c = '\t' || c = '\n' || c = '\r' || c = '\x0b' || c = '\x0c'

/-- Model of Python str.strip: drop leading and trailing whitespace. -/
def pyStrip (s : String) : String :=
  ⟨((s.data.dropWhile isSpacePy).reverse.dropWhile isSpacePy).reverse⟩

namespace Scraper

/-!
Embedding of scrapers/google_news/scraper.py.

An RSS item is modelled by the sub-elements the scraper reads.  An absent
element, or an element whose text is empty (falsy in Python), is modelled
as none for link and pubDate; title and source are none when the element is
missing.
-/

structure RssItem where
  title : Option String
  source : Option String
  link : Option String
  pubDate : Option String
deriving DecidableEq, Repr

/-- Statistics returned by deduplicate_articles. -/
structure DedupStats where
  total : Nat
  unique : Nat
  duplicates : Nat
deriving DecidableEq, Repr

/-- Url under which an item takes part in deduplication: the scraper checks
that the link element exists and that its text is truthy (non-empty). -/
def itemUrl (it : RssItem) : Option String :=
  match it.link with
  | some u => if u = "" then none else some u
  | none => none

/-- Loop of deduplicate_articles: seen_urls starts empty; an item with a
truthy link text is kept iff its url was not seen before, in which case the
url is recorded; items without a usable link are skipped. -/
def dedupGo : List String → List RssItem → List RssItem
  | _, [] => []
  | seen, item :: rest =>
    match itemUrl item with
    | some url =>
      if url ∈ seen then dedupGo seen rest
      else item :: dedupGo (url :: seen) rest
    | none => dedupGo seen rest

/-- Embedding of deduplicate_articles: returns the unique items and stats. -/
def deduplicate_articles (all_items : List RssItem) : List RssItem × DedupStats :=
  let unique_items := dedupGo [] all_items
  (unique_items,
   { total := all_items.length
     unique := unique_items.length
     duplicates := all_items.length - unique_items.length })

/-! ### Date filtering (filter_rss_by_date) -/

/-- Seconds per day, the granularity at which timedelta(days) is modelled. -/
def secondsPerDay : Int := 86400

/-- Statistics produced by filter_rss_by_date (timestamps as integers). -/
structure FilterStats where
  total : Nat
  kept : Nat
  removed : Nat
  oldest_kept : Option Int
  newest_kept : Option Int
deriving DecidableEq, Repr

/-- Retention test of filter_rss_by_date for one item, given the external
date parser (dateutil, an opaque collaborator) as a function, the current
time and the window in days.  An item is removed when its pubDate element is
missing or has falsy text, when parsing raises, or when the parsed timestamp
is strictly before now minus the window or strictly after now; it is kept
otherwise. -/
def keepItem (parseDate : String → Option Int) (now : Int) (days : Nat)
    (it : RssItem) : Bool :=
  let cutoff_date := now - (days : Int) * secondsPerDay
  match it.pubDate with
  | none => false
  | some s =>
    if s = "" then false
    else
      match parseDate s with
      | none => false
      | some pub_date => !(pub_date < cutoff_date || pub_date > now)

/-- Embedding of filter_rss_by_date: the surviving items (in original
order, the removed ones deleted from the channel) together with the stats. -/
def filter_rss_by_date (parseDate : String → Option Int) (now : Int)
    (items : List RssItem) (days : Nat := 14) : List RssItem × FilterStats :=
  let keptItems := items.filter (keepItem parseDate now days)
  let keptDates := items.filterMap (fun it =>
    if keepItem parseDate now days it then it.pubDate.bind parseDate else none)
  (keptItems,
   { total := items.length
     kept := keptItems.length
     removed := items.length - keptItems.length
     oldest_kept := keptDates.min?
     newest_kept := keptDates.max? })

/-! ### Consolidation (main) and the downstream feed parser -/

/-- Consolidation step of the scraper main: the consolidated document is
written only when the deduplicated list is non-empty (the code guards the
whole write with an if on unique_items); none models the absent file. -/
def consolidated_output (unique_items : List RssItem) : Option (List RssItem) :=
  if unique_items.isEmpty then none else some unique_items

/-- Scraper main from the point where every signal has produced its
surviving item list: concatenate in signal-iteration order, deduplicate,
and write the consolidated document when non-empty. -/
def scraper_consolidate (signals : List (List RssItem)) : Option (List RssItem) :=
  consolidated_output (deduplicate_articles signals.flatten).1

/-- Normalized tabular record produced by 1_parse_rss.py. -/
structure Article where
  signal : String
  titre : String
  source : String
  url : String
  date : String
deriving DecidableEq, Repr

/-- Embedding of extract_articles_from_xml applied to one item: missing
sub-elements degrade to the sentinel. -/
def toArticle (signal_name : String) (it : RssItem) : Article :=
  { signal := signal_name
    titre := it.title.getD "N/A"
    source := it.source.getD "N/A"
    url := it.link.getD "N/A"
    date := it.pubDate.getD "N/A" }

/-- Embedding of the main of 1_parse_rss.py from the consolidated-file
lookup onwards: when the consolidated document is absent the stage stops
with the run-the-previous-stage message and writes no record set. -/
def parse_rss_main (consolidated : Option (List RssItem)) :
    Except String (List Article) :=
  match consolidated with
  | none => .error "Exécutez d'abord: python scrapers/google_news/scraper.py"
  | some items => .ok (items.map (toArticle "consolidated"))

/-! ### Properties of deduplication -/

theorem dedupGo_sublist (l : List RssItem) :
    ∀ seen : List String, (dedupGo seen l).Sublist l := by
  induction l with
  | nil => intro seen; simp [dedupGo]
  | cons item rest ih =>
    intro seen
    unfold dedupGo
    match hitem : itemUrl item with
    | none => exact (ih seen).cons item
    | some v =>
      by_cases hv : v ∈ seen
      · simp only [if_pos hv]
        exact (ih seen).cons item
      · simp only [if_neg hv]
        exact (ih (v :: seen)).cons₂ item

theorem mem_dedupGo (l : List RssItem) :
    ∀ (seen : List String) (x : RssItem),
      x ∈ dedupGo seen l ↔
        ∃ u, itemUrl x = some u ∧ u ∉ seen ∧
          l.find? (fun it => decide (itemUrl it = some u)) = some x := by
  induction l with
  | nil => intro seen x; simp [dedupGo]
  | cons item rest ih =>
    intro seen x
    unfold dedupGo
    match hitem : itemUrl item with
    | none =>
      rw [ih seen x]
      constructor
      · rintro ⟨u, hxu, hus, hf⟩
        refine ⟨u, hxu, hus, ?_⟩
        rw [List.find?_cons_of_neg _ (by simp [hitem])]
        exact hf
      · rintro ⟨u, hxu, hus, hf⟩
        rw [List.find?_cons_of_neg _ (by simp [hitem])] at hf
        exact ⟨u, hxu, hus, hf⟩
    | some v =>
      by_cases hv : v ∈ seen
      · simp only [if_pos hv]
        rw [ih seen x]
        constructor
        · rintro ⟨u, hxu, hus, hf⟩
          have hne : v ≠ u := fun h => hus (h ▸ hv)
          refine ⟨u, hxu, hus, ?_⟩
          rw [List.find?_cons_of_neg _ (by simp [hitem, hne])]
          exact hf
        · rintro ⟨u, hxu, hus, hf⟩
          have hne : v ≠ u := fun h => hus (h ▸ hv)
          rw [List.find?_cons_of_neg _ (by simp [hitem, hne])] at hf
          exact ⟨u, hxu, hus, hf⟩
      · simp only [if_neg hv, List.mem_cons]
        constructor
        · rintro (rfl | hx)
          · exact ⟨v, hitem, hv,
              List.find?_cons_of_pos _ (by simp [hitem])⟩
          · obtain ⟨u, hxu, hus, hf⟩ := (ih (v :: seen) x).mp hx
            have hune : u ≠ v := by
              intro h; exact hus (h ▸ List.mem_cons_self v seen)
            refine ⟨u, hxu, fun h => hus (List.mem_cons_of_mem v h), ?_⟩
            rw [List.find?_cons_of_neg _ (by simp [hitem]; exact fun h => hune h.symm)]
            exact hf
        · rintro ⟨u, hxu, hus, hf⟩
          by_cases huv : u = v
          · subst huv
            rw [List.find?_cons_of_pos _ (by simp [hitem])] at hf
            exact Or.inl (Option.some_injective _ hf).symm
          · rw [List.find?_cons_of_neg _
              (by simp [hitem]; exact fun h => huv h.symm)] at hf
            exact Or.inr ((ih (v :: seen) x).mpr
              ⟨u, hxu, fun h => (List.mem_cons.mp h).elim huv hus, hf⟩)

theorem countP_dedupGo_of_seen (l : List RssItem) :
    ∀ (seen : List String) (u : String), u ∈ seen →
      (dedupGo seen l).countP (fun it => decide (itemUrl it = some u)) = 0 := by
  induction l with
  | nil => intro seen u _; simp [dedupGo]
  | cons item rest ih =>
    intro seen u hu
    unfold dedupGo
    match hitem : itemUrl item with
    | none => exact ih seen u hu
    | some v =>
      by_cases hv : v ∈ seen
      · simp only [if_pos hv]
        exact ih seen u hu
      · simp only [if_neg hv]
        have hne : ¬ (itemUrl item = some u) := by
          rw [hitem]; intro h
          exact hv ((Option.some_injective _ h) ▸ hu)
        rw [List.countP_cons_of_neg _ _ (by simpa using hne)]
        exact ih (v :: seen) u (List.mem_cons_of_mem v hu)

theorem countP_dedupGo_le_one (l : List RssItem) :
    ∀ (seen : List String) (u : String),
      (dedupGo seen l).countP (fun it => decide (itemUrl it = some u)) ≤ 1 := by
  induction l with
  | nil => intro seen u; simp [dedupGo]
  | cons item rest ih =>
    intro seen u
    unfold dedupGo
    match hitem : itemUrl item with
    | none => exact ih seen u
    | some v =>
      by_cases hv : v ∈ seen
      · simp only [if_pos hv]
        exact ih seen u
      · simp only [if_neg hv]
        by_cases huv : u = v
        · subst huv
          rw [List.countP_cons_of_pos _ _ (by simp [hitem])]
          have h0 := countP_dedupGo_of_seen rest (u :: seen) u
            (List.mem_cons_self u seen)
          omega
        · rw [List.countP_cons_of_neg _ _
            (by simp [hitem]; exact fun h => huv h.symm)]
          exact ih (v :: seen) u

/-- C3: the deduplication of the Collector, applied to the items collected
across signals in signal-iteration order, keeps exactly the
first-encountered item for each distinct URL, preserves the insertion order
of the kept items (the output is a sublist of the input), and silently
discards every later item sharing an already-seen URL (at most one kept
item per URL). -/
theorem dedup_first_occurrence_wins (l : List RssItem) :
    ((deduplicate_articles l).1.Sublist l) ∧
    (∀ x, x ∈ (deduplicate_articles l).1 ↔
      ∃ u, itemUrl x = some u ∧
        l.find? (fun it => decide (itemUrl it = some u)) = some x) ∧
    (∀ u : String,
      ((deduplicate_articles l).1.countP
        (fun it => decide (itemUrl it = some u))) ≤ 1) := by
  refine ⟨dedupGo_sublist l [], fun x => ?_, fun u => countP_dedupGo_le_one l [] u⟩
  rw [show (deduplicate_articles l).1 = dedupGo [] l from rfl, mem_dedupGo l [] x]
  constructor
  · rintro ⟨u, hxu, _, hf⟩; exact ⟨u, hxu, hf⟩
  · rintro ⟨u, hxu, hf⟩; exact ⟨u, hxu, List.not_mem_nil u, hf⟩

/-- C4: an item at the window boundary (timestamp exactly now minus the
window, or exactly now) is retained by filter_rss_by_date; an item strictly
outside the window, or with a missing, empty or unparsable publication
date, is excluded. -/
theorem date_filter_boundary (parseDate : String → Option Int) (now : Int)
    (days : Nat) (items : List RssItem) (it : RssItem) (hmem : it ∈ items) :
    (∀ s t, it.pubDate = some s → s ≠ "" → parseDate s = some t →
        (t = now - (days : Int) * secondsPerDay ∨ t = now) →
        it ∈ (filter_rss_by_date parseDate now items days).1) ∧
    (∀ s t, it.pubDate = some s → parseDate s = some t →
        (t < now - (days : Int) * secondsPerDay ∨ now < t) →
        it ∉ (filter_rss_by_date parseDate now items days).1) ∧
    (it.pubDate = none →
        it ∉ (filter_rss_by_date parseDate now items days).1) ∧
    (it.pubDate = some "" →
        it ∉ (filter_rss_by_date parseDate now items days).1) ∧
    (∀ s, it.pubDate = some s → parseDate s = none →
        it ∉ (filter_rss_by_date parseDate now items days).1) := by
  have hdays : (0 : Int) ≤ (days : Int) * secondsPerDay := by
    have : (0 : Int) ≤ (days : Int) := Int.ofNat_nonneg days
    have h2 : (0 : Int) ≤ secondsPerDay := by norm_num [secondsPerDay]
    exact mul_nonneg this h2
  refine ⟨?_, ?_, ?_, ?_, ?_⟩
  · intro s t hs hse hp hb
    refine List.mem_filter.mpr ⟨hmem, ?_⟩
    simp only [keepItem, hs, if_neg hse, hp]
    rcases hb with rfl | rfl <;> simp <;> omega
  · intro s t hs hp hb
    intro hmemf
    have hk := (List.mem_filter.mp hmemf).2
    simp only [keepItem, hs, hp] at hk
    by_cases hse : s = ""
    · rw [if_pos hse] at hk; exact Bool.false_ne_true hk
    · rw [if_neg hse] at hk
      simp at hk
      omega
  · intro hs hmemf
    have hk := (List.mem_filter.mp hmemf).2
    simp [keepItem, hs] at hk
  · intro hs hmemf
    have hk := (List.mem_filter.mp hmemf).2
    simp [keepItem, hs] at hk
  · intro s hs hp hmemf
    have hk := (List.mem_filter.mp hmemf).2
    simp [keepItem, hs, hp] at hk

/-- Concrete item and parser used to witness the date-filter claim. -/
def demoItem : RssItem :=
  { title := some "t", source := some "s", link := some "u",
    pubDate := some "boundary" }

/-- Date parser used by the witnesses: one parsable date string. -/
def demoParse (s : String) : Option Int :=
  if s = "boundary" then some (1000000 - 14 * secondsPerDay) else none

theorem date_filter_boundary_witness :
    demoItem ∈ [demoItem] ∧
    demoItem ∈ (filter_rss_by_date demoParse 1000000 [demoItem] 14).1 :=
  ⟨by simp,
   (date_filter_boundary demoParse 1000000 14 [demoItem] demoItem (by simp)).1
     "boundary" (1000000 - 14 * secondsPerDay) rfl (by decide) (by decide)
     (Or.inl (by norm_num [secondsPerDay]))⟩

/-- C5 evidence: when every signal yields zero surviving items, the
Collector writes no consolidated document (the write is guarded by a
non-emptiness test) and the Feed Parser then stops with the
run-the-previous-stage message instead of accepting zero records. -/
theorem empty_run_breaks_downstream (signals : List (List RssItem))
    (h : ∀ s ∈ signals, s = []) :
    scraper_consolidate signals = none ∧
    parse_rss_main (scraper_consolidate signals) =
      .error "Exécutez d'abord: python scrapers/google_news/scraper.py" := by
  have hflat : signals.flatten = [] := by
    rw [List.flatten_eq_nil_iff]
    exact h
  have hnone : scraper_consolidate signals = none := by
    simp [scraper_consolidate, deduplicate_articles, hflat, dedupGo,
      consolidated_output]
  exact ⟨hnone, by rw [hnone]; rfl⟩

theorem empty_run_breaks_downstream_witness :
    scraper_consolidate [[], [], []] = none ∧
    parse_rss_main (scraper_consolidate [[], [], []]) =
      .error "Exécutez d'abord: python scrapers/google_news/scraper.py" :=
  empty_run_breaks_downstream [[], [], []] (by simp)

end Scraper

/-! ## Shared model of one external language-model call -/

/-- Outcome of one call to the external classification, extraction or
qualification service: the call either raises (transport error, timeout,
API error) or returns a response text. -/
inductive SvcOutcome where
  | failure
  | reply (text : String)
deriving DecidableEq, Repr

/-! ## String helpers over the character list (executable, kernel-friendly) -/

/-- Lower-case a string character by character (model of str.lower on the
ASCII domain names handled here). -/
def strLower (s : String) : String := ⟨s.data.map Char.toLower⟩

/-- Test whether pre is a prefix of s (model of str.startswith). -/
def strStartsWith (s pre : String) : Bool := pre.data.isPrefixOf s.data

/-- Test whether suf is a suffix of s (model of str.endswith). -/
def strEndsWith (s suf : String) : Bool := suf.data.isSuffixOf s.data

/-- Drop the first n characters of a string (model of slicing s[n:]). -/
def strDrop (s : String) (n : Nat) : String := ⟨s.data.drop n⟩

/-- Drop the last n characters of a string (model of slicing s[:-n]). -/
def strDropRight (s : String) (n : Nat) : String :=
  ⟨s.data.take (s.data.length - n)⟩

namespace DownloadHtml

/-!
Embedding of processors/google_news/2_download_html.py: the origin
allow-list (is_quebec_canadian_domain), the per-article download worker
(process_article_download) and the filename assignment in main.
-/

/-- The ALLOWED_DOMAINS set of accepted Quebec and Canadian domains. -/
def ALLOWED_DOMAINS : List String :=
  ["lapresse.ca", "ledevoir.com", "journaldemontreal.com", "journaldequebec.com",
   "tvanouvelles.ca", "radio-canada.ca", "ici.radio-canada.ca", "rcinet.ca",
   "lactualite.com", "ledroit.com", "lesoleil.com", "latribune.ca",
   "nouvelliste.ca", "lequotidien.com", "lavoixdelest.ca", "noovo.info",
   "quebec.ca", "gouv.qc.ca", "assnat.qc.ca", "dgeq.org",
   "oiiq.org", "cmq.org", "barreau.qc.ca", "opq.gouv.qc.ca",
   "csn.qc.ca", "ftq.qc.ca", "fiq.qc.ca", "scfp.qc.ca", "sqees-298.qc.ca",
   "ville.montreal.qc.ca", "ville.quebec.qc.ca", "stm.info",
   "monvicto.com", "lienmultimedia.com", "francopresse.ca",
   "cbc.ca", "theglobeandmail.com", "nationalpost.com", "thestar.com",
   "globalnews.ca", "ctv.ca", "ctvnews.ca"]

/-- Scan for the scheme separator of a URL and return what follows it. -/
def afterScheme : List Char → Option (List Char)
  | [] => none
  | c :: rest =>
    if [':', '/', '/'].isPrefixOf (c :: rest) then some (rest.drop 2)
    else afterScheme rest

/-- Network-location component of a URL, as urlparse extracts it: the
segment between the scheme separator and the next slash, query or fragment
delimiter; empty when the URL has no scheme separator. -/
def netlocOf (url : String) : String :=
  match afterScheme url.data with
  | none => ""
  | some rest => ⟨rest.takeWhile (fun c => !(c = '/' || c = '?' || c = '#'))⟩

/-- Domain a URL is judged by: the network location, lower-cased, with a
leading www. removed. -/
def finalDomain (url : String) : String :=
  let domain := strLower (netlocOf url)
  if strStartsWith domain "www." then strDrop domain 4 else domain

/-- Embedding of is_quebec_canadian_domain: accept every domain ending in
the .ca top-level suffix, every exact member of ALLOWED_DOMAINS, and every
subdomain of a member. -/
def is_quebec_canadian_domain (url : String) : Bool :=
  let domain := finalDomain url
  if strEndsWith domain ".ca" then true
  else if ALLOWED_DOMAINS.contains domain then true
  else ALLOWED_DOMAINS.any (fun allowed => strEndsWith domain ("." ++ allowed))

/-- Decimal digits of n, least significant first, by fuel-bounded division
(executable model of the decimal rendering done by format strings). -/
def toDigitsRev : Nat → Nat → List Nat
  | _, 0 => []
  | 0, _ + 1 => []
  | f + 1, m + 1 => (m + 1) % 10 :: toDigitsRev f ((m + 1) / 10)

/-- Decimal digits of n, least significant first. -/
def decDigits (n : Nat) : List Nat := toDigitsRev n n

/-- Digits of n padded with zeros on the most-significant side to width at
least 4, least significant first. -/
def pad4Digits (n : Nat) : List Nat :=
  decDigits n ++ List.replicate (4 - (decDigits n).length) 0

/-- Character of one decimal digit. -/
def digitCh (d : Nat) : Char := Char.ofNat (48 + d)

/-- Model of the Python format specifier 04d: n in decimal, zero-padded to
width at least 4. -/
def fmt04 (n : Nat) : String := ⟨(pad4Digits n).reverse.map digitCh⟩

/-- Embedding of sanitize_filename: the name depends only on the id. -/
def sanitize_filename (url : String) (article_id : Nat) : String :=
  "article_" ++ fmt04 article_id ++ ".html"

/-- Outcome of download_html_selenium for one URL: a timeout or error, or
the final post-redirect URL together with the rendered page source (the
content file has been written in the success case). -/
inductive FetchOutcome where
  | failure
  | success (final_url : String) (html : String)
deriving DecidableEq, Repr

/-- One entry of the task list built in main: 1-based position, batch
size, the article, and the id drawn from the shared counter. -/
structure DlTask where
  idx : Nat
  total : Nat
  article : Scraper.Article
  article_id : Nat
deriving DecidableEq, Repr

/-- Result record of process_article_download, together with whether the
stored content file still exists on every exit path (the worker deletes
the freshly written file when the final domain fails the allow-list). -/
structure DlResult where
  success : Bool
  skipped : Bool
  filename : Option String
  final_url : Option String
  fileSaved : Bool
deriving DecidableEq, Repr

/-- Embedding of process_article_download: on a successful fetch the final
post-redirect URL (never the original one) is checked against the
allow-list; a rejected item is skipped and its content file deleted. -/
def process_article_download (task : DlTask) (outcome : FetchOutcome) : DlResult :=
  match outcome with
  | .failure =>
    { success := false, skipped := false, filename := none,
      final_url := none, fileSaved := false }
  | .success final_url _ =>
    if is_quebec_canadian_domain final_url then
      { success := true, skipped := false,
        filename := some (sanitize_filename task.article.url task.article_id),
        final_url := some final_url, fileSaved := true }
    else
      { success := false, skipped := true, filename := none,
        final_url := none, fileSaved := false }

/-- Task-list construction of main: the counter starts at 0 and the list
comprehension draws one lock-guarded increment per article, sequentially in
the main thread before any worker starts. -/
def buildTasksGo (total : Nat) : Nat → Nat → List Scraper.Article → List DlTask
  | _, _, [] => []
  | i, counter, a :: rest =>
    { idx := i + 1, total := total, article := a, article_id := counter + 1 }
      :: buildTasksGo total (i + 1) (counter + 1) rest

/-- Embedding of the task-list comprehension of main. -/
def buildTasks (articles : List Scraper.Article) : List DlTask :=
  buildTasksGo articles.length 0 0 articles

/-! ### Decimal-formatting facts used for filename distinctness -/

theorem ofDigits_toDigitsRev :
    ∀ (fuel n : Nat), n ≤ fuel → Nat.ofDigits 10 (toDigitsRev fuel n) = n := by
  intro fuel
  induction fuel with
  | zero =>
    intro n h
    interval_cases n
    simp [toDigitsRev, Nat.ofDigits]
  | succ f ih =>
    intro n h
    match n with
    | 0 => simp [toDigitsRev, Nat.ofDigits]
    | m + 1 =>
      have hdiv : (m + 1) / 10 ≤ f := by omega
      simp only [toDigitsRev, Nat.ofDigits_cons, ih ((m + 1) / 10) hdiv]
      omega

theorem ofDigits_replicate_zero :
    ∀ k : Nat, Nat.ofDigits 10 (List.replicate k 0) = 0 := by
  intro k
  induction k with
  | zero => simp [Nat.ofDigits]
  | succ k ih => simp [List.replicate_succ, Nat.ofDigits_cons, ih]

theorem ofDigits_pad4 (n : Nat) : Nat.ofDigits 10 (pad4Digits n) = n := by
  rw [pad4Digits, Nat.ofDigits_append, ofDigits_replicate_zero]
  simp [decDigits, ofDigits_toDigitsRev n n le_rfl]

theorem pad4Digits_inj : Function.Injective pad4Digits := by
  intro a b h
  have := congrArg (Nat.ofDigits 10) h
  rwa [ofDigits_pad4, ofDigits_pad4] at this

theorem toDigitsRev_lt :
    ∀ (fuel n : Nat), ∀ d ∈ toDigitsRev fuel n, d < 10 := by
  intro fuel
  induction fuel with
  | zero =>
    intro n d hd
    match n with
    | 0 => simp [toDigitsRev] at hd
    | _ + 1 => simp [toDigitsRev] at hd
  | succ f ih =>
    intro n d hd
    match n with
    | 0 => simp [toDigitsRev] at hd
    | m + 1 =>
      simp only [toDigitsRev, List.mem_cons] at hd
      rcases hd with rfl | hd
      · omega
      · exact ih ((m + 1) / 10) d hd

theorem pad4Digits_lt (n : Nat) : ∀ d ∈ pad4Digits n, d < 10 := by
  intro d hd
  rcases List.mem_append.mp hd with hd | hd
  · exact toDigitsRev_lt n n d hd
  · rw [List.eq_of_mem_replicate hd]; omega

theorem digitCh_inj :
    ∀ d1 < 10, ∀ d2 < 10, digitCh d1 = digitCh d2 → d1 = d2 := by decide

theorem map_digitCh_inj :
    ∀ (l1 l2 : List Nat), (∀ d ∈ l1, d < 10) → (∀ d ∈ l2, d < 10) →
      l1.map digitCh = l2.map digitCh → l1 = l2 := by
  intro l1
  induction l1 with
  | nil =>
    intro l2 _ _ h
    cases l2 with
    | nil => rfl
    | cons b t => simp at h
  | cons a t ih =>
    intro l2 h1 h2 h
    cases l2 with
    | nil => simp at h
    | cons b t2 =>
      simp only [List.map_cons, List.cons.injEq] at h
      have ha := h1 a (List.mem_cons_self a t)
      have hb := h2 b (List.mem_cons_self b t2)
      have hab := digitCh_inj a ha b hb h.1
      have ht := ih t2 (fun d hd => h1 d (List.mem_cons_of_mem a hd))
        (fun d hd => h2 d (List.mem_cons_of_mem b hd)) h.2
      rw [hab, ht]

theorem fmt04_inj (a b : Nat) (h : fmt04 a = fmt04 b) : a = b := by
  have hd : (pad4Digits a).reverse.map digitCh =
      (pad4Digits b).reverse.map digitCh := congrArg String.data h
  have hrev := map_digitCh_inj _ _
    (fun d hd2 => pad4Digits_lt a d (List.mem_reverse.mp hd2))
    (fun d hd2 => pad4Digits_lt b d (List.mem_reverse.mp hd2)) hd
  exact pad4Digits_inj (List.reverse_injective hrev)

theorem sanitize_filename_inj (u1 u2 : String) (a b : Nat)
    (h : sanitize_filename u1 a = sanitize_filename u2 b) : a = b := by
  have hd : "article_".data ++ ((fmt04 a).data ++ ".html".data) =
      "article_".data ++ ((fmt04 b).data ++ ".html".data) := by
    have h2 := congrArg String.data h
    simpa [sanitize_filename, List.append_assoc] using h2
  have h1 := List.append_cancel_left hd
  have h2 := List.append_cancel_right h1
  exact fmt04_inj a b (by
    have : (fmt04 a) = ⟨(fmt04 b).data⟩ := by rw [← h2]
    simpa using this)

/-! ### Properties of the task list and its filenames -/

theorem buildTasksGo_getElem (total : Nat) :
    ∀ (l : List Scraper.Article) (i c k : Nat),
      (buildTasksGo total i c l)[k]? =
        l[k]?.map (fun a =>
          { idx := i + k + 1, total := total, article := a,
            article_id := c + k + 1 }) := by
  intro l
  induction l with
  | nil => intro i c k; simp [buildTasksGo]
  | cons a rest ih =>
    intro i c k
    match k with
    | 0 => simp [buildTasksGo]
    | k + 1 =>
      simp only [buildTasksGo, List.getElem?_cons_succ]
      rw [ih (i + 1) (c + 1) k]
      have h1 : i + 1 + k + 1 = i + (k + 1) + 1 := by omega
      have h2 : c + 1 + k + 1 = c + (k + 1) + 1 := by omega
      simp only [h1, h2]

theorem buildTasksGo_map_id (total : Nat) :
    ∀ (l : List Scraper.Article) (i c : Nat),
      (buildTasksGo total i c l).map (fun t => t.article_id) =
        List.range' (c + 1) l.length := by
  intro l
  induction l with
  | nil => intro i c; simp [buildTasksGo]
  | cons a rest ih =>
    intro i c
    simp only [buildTasksGo, List.map_cons, List.length_cons, List.range'_succ]
    rw [ih (i + 1) (c + 1)]

/-- C10: the task list of the Selenium download stage is built sequentially
in the main thread, so the k-th article (0-based k, hence 1-based position
k+1) receives exactly the counter value k+1 and the filename determined by
that value; the filenames over the whole task list are pairwise distinct,
so no two workers ever share an output file. -/
theorem filename_assignment (articles : List Scraper.Article) :
    (∀ (k : Nat) (a : Scraper.Article), articles[k]? = some a →
      (buildTasks articles)[k]? = some
        { idx := k + 1, total := articles.length, article := a,
          article_id := k + 1 } ∧
      sanitize_filename a.url (k + 1) = "article_" ++ fmt04 (k + 1) ++ ".html") ∧
    ((buildTasks articles).map
      (fun t => sanitize_filename t.article.url t.article_id)).Nodup := by
  constructor
  · intro k a hk
    refine ⟨?_, rfl⟩
    rw [buildTasks, buildTasksGo_getElem articles.length articles 0 0 k, hk]
    simp
  · have hmap : (buildTasks articles).map
        (fun t => sanitize_filename t.article.url t.article_id) =
        ((buildTasks articles).map (fun t => t.article_id)).map
          (fun n => sanitize_filename "" n) := by
      rw [List.map_map]
      rfl
    rw [hmap, buildTasks, buildTasksGo_map_id]
    exact List.Nodup.map (fun a b h => sanitize_filename_inj "" "" a b h)
      (List.nodup_range' 1 articles.length 1 (by omega))

/-- Concrete articles for the filename witness. -/
def demoArticleA : Scraper.Article :=
  { signal := "sigA", titre := "tA", source := "sA", url := "uA", date := "dA" }

/-- Second concrete article for the filename witness. -/
def demoArticleB : Scraper.Article :=
  { signal := "sigB", titre := "tB", source := "sB", url := "uB", date := "dB" }

theorem filename_assignment_witness :
    (buildTasks [demoArticleA, demoArticleB])[1]? = some
      { idx := 2, total := 2, article := demoArticleB, article_id := 2 } ∧
    ((buildTasks [demoArticleA, demoArticleB]).map
      (fun t => sanitize_filename t.article.url t.article_id)).Nodup :=
  ⟨((filename_assignment [demoArticleA, demoArticleB]).1 1 demoArticleB
      (by decide)).1,
   (filename_assignment [demoArticleA, demoArticleB]).2⟩

/-- C7: the origin allow-list is evaluated against the final post-redirect
URL only: the keep decision of a successful fetch equals the allow-list
test of the final URL, is independent of the task (hence of the original
URL), a final domain ending in the .ca suffix is kept, a rejected item is
dropped with its stored content file deleted, and concretely a final URL on
exemple.ca passes while one on exemple.com fails. -/
theorem allowlist_applies_to_final_url (task otherTask : DlTask)
    (finalUrl html otherHtml : String) :
    ((process_article_download task (.success finalUrl html)).success =
        is_quebec_canadian_domain finalUrl) ∧
    ((process_article_download task (.success finalUrl html)).success =
        (process_article_download otherTask (.success finalUrl otherHtml)).success) ∧
    (strEndsWith (finalDomain finalUrl) ".ca" = true →
        (process_article_download task (.success finalUrl html)).success = true ∧
        (process_article_download task (.success finalUrl html)).fileSaved = true) ∧
    (is_quebec_canadian_domain finalUrl = false →
        (process_article_download task (.success finalUrl html)).success = false ∧
        (process_article_download task (.success finalUrl html)).fileSaved = false) ∧
    is_quebec_canadian_domain "https://exemple.ca/article" = true ∧
    is_quebec_canadian_domain "https://exemple.com/article" = false := by
  have hca : strEndsWith (finalDomain finalUrl) ".ca" = true →
      is_quebec_canadian_domain finalUrl = true := by
    intro h
    simp only [is_quebec_canadian_domain, h]
    rfl
  by_cases h : is_quebec_canadian_domain finalUrl
  · refine ⟨?_, ?_, ?_, ?_, by decide, by decide⟩
    · simp [process_article_download, h]
    · simp [process_article_download, h]
    · intro _; simp [process_article_download, h]
    · intro hfalse; rw [h] at hfalse; exact absurd hfalse (by simp)
  · have hb : is_quebec_canadian_domain finalUrl = false := by
      simpa using h
    refine ⟨?_, ?_, ?_, ?_, by decide, by decide⟩
    · simp [process_article_download, hb]
    · simp [process_article_download, hb]
    · intro hc; exact absurd (hca hc) h
    · intro _; simp [process_article_download, hb]

/-- Concrete task for the allow-list witness. -/
def demoTask : DlTask :=
  { idx := 1, total := 1, article := demoArticleA, article_id := 1 }

theorem allowlist_applies_to_final_url_witness :
    (process_article_download demoTask
      (.success "https://www.exemple.ca/a" "page")).success = true ∧
    (process_article_download demoTask
      (.success "https://www.exemple.ca/a" "page")).fileSaved = true :=
  (allowlist_applies_to_final_url demoTask demoTask
    "https://www.exemple.ca/a" "page" "page").2.2.1 (by decide)

end DownloadHtml

namespace FilterLlm

/-!
Embedding of processors/google_news/2_filter_with_llm.py: the per-article
relevance score with its neutral default, and the threshold filter of main.
-/

/-- Threshold above which an article is kept (scores greater or equal). -/
def PERTINENCE_THRESHOLD : Int := 4

/-- Numeric value of a digit string. -/
def digitsVal (cs : List Char) : Nat :=
  cs.foldl (fun a c => a * 10 + (c.toNat - 48)) 0

/-- Parse a non-empty all-digit character list. -/
def parseDigits (cs : List Char) : Option Nat :=
  if cs.isEmpty then none
  else if cs.all Char.isDigit then some (digitsVal cs) else none

/-- Model of the Python int constructor on a string: strip whitespace,
accept an optional sign followed by decimal digits, raise otherwise (the
none case). -/
def pyToInt? (s : String) : Option Int :=
  match (pyStrip s).data with
  | '+' :: rest => (parseDigits rest).map Int.ofNat
  | '-' :: rest => (parseDigits rest).map (fun n => -(n : Int))
  | cs => (parseDigits cs).map Int.ofNat

/-- Embedding of evaluate_article: a raising call or an unparsable score
text yields the default 3; a parsed score outside 1..5 yields the default
3; a parsed in-range score is returned as is. -/
def evaluate_article (outcome : SvcOutcome) : Int :=
  match outcome with
  | .failure => 3
  | .reply text =>
    match pyToInt? (pyStrip text) with
    | none => 3
    | some score => if score < 1 ∨ score > 5 then 3 else score

/-- Embedding of the filtering loop of main: keep an article, tagged with
its score, exactly when the score meets the threshold. -/
def filter_llm_main (articles : List (Scraper.Article × SvcOutcome)) :
    List (Scraper.Article × Int) :=
  articles.filterMap (fun p =>
    if PERTINENCE_THRESHOLD ≤ evaluate_article p.2 then
      some (p.1, evaluate_article p.2)
    else none)

/-- The situations the claim quantifies over: the classifier call raised,
or its response fails integer parsing, or it parses outside 1..5. -/
def errorOrOutOfRange (oc : SvcOutcome) : Prop :=
  oc = .failure ∨ ∃ text, oc = .reply text ∧
    (pyToInt? (pyStrip text) = none ∨
     ∃ n, pyToInt? (pyStrip text) = some n ∧ (n < 1 ∨ 5 < n))

/-- C9: under the shipped configuration (threshold 4, default 3), an
article whose classifier call raises or scores outside 1..5 receives the
default score 3, which is strictly below the threshold; every kept entry
meets the threshold, so an entry carrying the default score is never in
the output. -/
theorem default_score_never_kept (oc : SvcOutcome) (h : errorOrOutOfRange oc) :
    evaluate_article oc = 3 ∧
    evaluate_article oc < PERTINENCE_THRESHOLD ∧
    (∀ (l : List (Scraper.Article × SvcOutcome)) (p : Scraper.Article × Int),
        p ∈ filter_llm_main l → PERTINENCE_THRESHOLD ≤ p.2) ∧
    (∀ (l : List (Scraper.Article × SvcOutcome)) (a : Scraper.Article),
        (a, evaluate_article oc) ∉ filter_llm_main l) := by
  have h3 : evaluate_article oc = 3 := by
    rcases h with rfl | ⟨text, rfl, hp⟩
    · rfl
    · simp only [evaluate_article]
      rcases hp with hn | ⟨n, hs, hr⟩
      · rw [hn]
      · rw [hs]
        show (if n < 1 ∨ n > 5 then (3 : Int) else n) = 3
        rw [if_pos hr]
  have hkeep : ∀ (l : List (Scraper.Article × SvcOutcome))
      (p : Scraper.Article × Int),
      p ∈ filter_llm_main l → PERTINENCE_THRESHOLD ≤ p.2 := by
    intro l p hp
    obtain ⟨x, _, hfx⟩ := List.mem_filterMap.mp hp
    by_cases hc : PERTINENCE_THRESHOLD ≤ evaluate_article x.2
    · rw [if_pos hc] at hfx
      obtain rfl := Option.some_injective _ hfx
      exact hc
    · rw [if_neg hc] at hfx
      exact absurd hfx (by simp)
  refine ⟨h3, by rw [h3]; norm_num [PERTINENCE_THRESHOLD], hkeep, ?_⟩
  intro l a hmem
  have hge := hkeep l (a, evaluate_article oc) hmem
  rw [h3] at hge
  norm_num [PERTINENCE_THRESHOLD] at hge

/-- Concrete article used by the relevance-filter witness. -/
def demoArticle : Scraper.Article :=
  { signal := "sig", titre := "titre", source := "source",
    url := "url", date := "date" }

theorem default_score_never_kept_witness :
    evaluate_article .failure = 3 ∧
    (demoArticle, evaluate_article .failure) ∉
      filter_llm_main [(demoArticle, .failure)] :=
  ⟨(default_score_never_kept .failure (Or.inl rfl)).1,
   (default_score_never_kept .failure (Or.inl rfl)).2.2.2
     [(demoArticle, .failure)] demoArticle⟩

end FilterLlm

/-! ## A model of json.loads

The extraction and qualification stages parse service responses with the
standard json module in strict mode.  The grammar below follows it: objects,
arrays, strings with the standard escapes, integer numerals, and the three
literals; an unescaped control character inside a string is a parse error,
and trailing content after the top-level value is a parse error.  Outside
the model (none of the claims exercises them): numerals with a fractional
or exponent part, the NaN and Infinity extensions, and surrogate pairing of
backslash-u escapes. -/

inductive Json where
  | null
  | bool (b : Bool)
  | num (n : Int)
  | str (s : String)
  | arr (items : List Json)
  | obj (fields : List (String × Json))

/-- Whitespace accepted between JSON tokens by the json module. -/
def skipWs (s : List Char) : List Char :=
  s.dropWhile (fun c => c = ' ' || c = '\t' || c = '\n' || c = '\r')

/-- Numeric value of a hexadecimal digit. -/
def hexVal? (c : Char) : Option Nat :=
  if c.isDigit then some (c.toNat - 48)
  else if 'a' ≤ c ∧ c ≤ 'f' then some (c.toNat - 87)
  else if 'A' ≤ c ∧ c ≤ 'F' then some (c.toNat - 55)
  else none

/-- Numeric value of a digit string. -/
def digitsVal (cs : List Char) : Nat :=
  cs.foldl (fun a c => a * 10 + (c.toNat - 48)) 0

/-- Body of a JSON string after the opening quote, with the standard
escapes; an unescaped character below 0x20 is rejected (strict mode). -/
def parseStrGo : List Char → List Char → Option (String × List Char)
  | [], _ => none
  | '"' :: rest, acc => some (⟨acc.reverse⟩, rest)
  | '\\' :: '"' :: r, acc => parseStrGo r ('"' :: acc)
  | '\\' :: '\\' :: r, acc => parseStrGo r ('\\' :: acc)
  | '\\' :: '/' :: r, acc => parseStrGo r ('/' :: acc)
  | '\\' :: 'b' :: r, acc => parseStrGo r ('\x08' :: acc)
  | '\\' :: 'f' :: r, acc => parseStrGo r ('\x0c' :: acc)
  | '\\' :: 'n' :: r, acc => parseStrGo r ('\n' :: acc)
  | '\\' :: 'r' :: r, acc => parseStrGo r ('\r' :: acc)
  | '\\' :: 't' :: r, acc => parseStrGo r ('\t' :: acc)
  | '\\' :: 'u' :: h1 :: h2 :: h3 :: h4 :: r, acc =>
    match hexVal? h1, hexVal? h2, hexVal? h3, hexVal? h4 with
    | some a, some b, some c, some d =>
      parseStrGo r (Char.ofNat (((a * 16 + b) * 16 + c) * 16 + d) :: acc)
    | _, _, _, _ => none
  | '\\' :: _, _ => none
  | c :: rest, acc => if c.toNat < 32 then none else parseStrGo rest (c :: acc)

/-- Integer token: a lone zero, or a nonzero leading digit followed by a
maximal digit run (the JSON grammar forbids leading zeros). -/
def parseNatTok : List Char → Option (Nat × List Char)
  | '0' :: rest => some (0, rest)
  | c :: rest =>
    if c.isDigit then
      some (digitsVal (c :: rest.takeWhile Char.isDigit),
        rest.dropWhile Char.isDigit)
    else none
  | [] => none

/-- Numeric token with optional minus sign; a following fractional or
exponent marker is outside the integer model and rejected. -/
def parseNum : List Char → Option (Json × List Char)
  | '-' :: rest =>
    match parseNatTok rest with
    | some (n, r) =>
      match r with
      | c :: _ => if c = '.' ∨ c = 'e' ∨ c = 'E' then none
                  else some (Json.num (-(n : Int)), r)
      | [] => some (Json.num (-(n : Int)), [])
    | none => none
  | s =>
    match parseNatTok s with
    | some (n, r) =>
      match r with
      | c :: _ => if c = '.' ∨ c = 'e' ∨ c = 'E' then none
                  else some (Json.num (n : Int), r)
      | [] => some (Json.num (n : Int), [])
    | none => none

/-- Members of an object after the opening brace (first member expected),
fueled by the remaining input length; each iteration consumes at least one
character, so the fuel never runs out on reachable inputs. -/
def parseMembersGo (pv : List Char → Option (Json × List Char)) :
    Nat → List Char → List (String × Json) → Option (Json × List Char)
  | 0, _, _ => none
  | f + 1, s, acc =>
    match skipWs s with
    | '"' :: rest =>
      match parseStrGo rest [] with
      | none => none
      | some (key, r1) =>
        match skipWs r1 with
        | ':' :: r2 =>
          match pv r2 with
          | none => none
          | some (v, r3) =>
            match skipWs r3 with
            | ',' :: r4 => parseMembersGo pv f r4 (acc ++ [(key, v)])
            | '}' :: r4 => some (Json.obj (acc ++ [(key, v)]), r4)
            | _ => none
        | _ => none
    | _ => none

/-- Elements of an array after the opening bracket (first element
expected), fueled by the remaining input length. -/
def parseElemsGo (pv : List Char → Option (Json × List Char)) :
    Nat → List Char → List Json → Option (Json × List Char)
  | 0, _, _ => none
  | f + 1, s, acc =>
    match pv s with
    | none => none
    | some (v, r1) =>
      match skipWs r1 with
      | ',' :: r2 => parseElemsGo pv f r2 (acc ++ [v])
      | ']' :: r2 => some (Json.arr (acc ++ [v]), r2)
      | _ => none

/-- Object body after the opening brace. -/
def parseObjBody (pv : List Char → Option (Json × List Char))
    (s : List Char) : Option (Json × List Char) :=
  match skipWs s with
  | '}' :: rest => some (Json.obj [], rest)
  | s2 => parseMembersGo pv (s2.length + 1) s2 []

/-- Array body after the opening bracket. -/
def parseArrBody (pv : List Char → Option (Json × List Char))
    (s : List Char) : Option (Json × List Char) :=
  match skipWs s with
  | ']' :: rest => some (Json.arr [], rest)
  | s2 => parseElemsGo pv (s2.length + 1) s2 []

/-- One JSON value with leading whitespace, fueled by nesting depth. -/
def parseValueF : Nat → List Char → Option (Json × List Char)
  | 0, _ => none
  | f + 1, s =>
    match skipWs s with
    | '{' :: rest => parseObjBody (fun t => parseValueF f t) rest
    | '[' :: rest => parseArrBody (fun t => parseValueF f t) rest
    | '"' :: rest =>
      match parseStrGo rest [] with
      | some (str, r) => some (Json.str str, r)
      | none => none
    | 't' :: 'r' :: 'u' :: 'e' :: rest => some (Json.bool true, rest)
    | 'f' :: 'a' :: 'l' :: 's' :: 'e' :: rest => some (Json.bool false, rest)
    | 'n' :: 'u' :: 'l' :: 'l' :: rest => some (Json.null, rest)
    | s2 => parseNum s2

/-- Model of json.loads: parse one value and require only whitespace after
it; none models the JSONDecodeError. -/
def json_loads (s : String) : Option Json :=
  match parseValueF (s.data.length + 1) s.data with
  | some (v, rest) => if (skipWs rest).isEmpty then some v else none
  | none => none

/-- Last-wins lookup among the members of a parsed object, as building a
Python dict from duplicate keys keeps the last value. -/
def objGet (fields : List (String × Json)) (k : String) : Option Json :=
  fields.foldl (fun acc p => if p.1 = k then some p.2 else acc) none

/-- Model of dict.get with a default. -/
def objGetD (fields : List (String × Json)) (k : String) (d : Json) : Json :=
  (objGet fields k).getD d

/-- Python truthiness of a parsed JSON value. -/
def truthy : Json → Bool
  | .null => false
  | .bool b => b
  | .num n => decide (n ≠ 0)
  | .str s => decide (s ≠ "")
  | .arr l => !l.isEmpty
  | .obj fs => !fs.isEmpty

/-- Code-fence cleaning shared verbatim by the extraction and qualification
stages: strip the response, remove a leading json-tagged or plain fence
marker and a trailing fence marker, and strip again. -/
def stripFences (response_text : String) : String :=
  let t0 := pyStrip response_text
  let t1 := if strStartsWith t0 "```json" then strDrop t0 7 else t0
  let t2 := if strStartsWith t1 "```" then strDrop t1 3 else t1
  let t3 := if strEndsWith t2 "```" then strDropRight t2 3 else t2
  pyStrip t3

namespace ExtractOrgs

/-!
Embedding of processors/google_news/4_extract_organizations.py: the
resilient response parsing of extract_organizations_and_summary and the
aggregation of aggregate_organizations.
-/

/-- Scan of the normalization substitution: the pattern is a quote followed
by a whitespace run containing a line break, replaced by a quote and one
space, scanning left to right without overlap and continuing after each
replaced region.  The fuel equals the input length; every step consumes at
least one character. -/
def normGo : Nat → List Char → List Char
  | 0, s => s
  | _, [] => []
  | f + 1, '"' :: rest =>
    if '\n' ∈ rest.takeWhile isSpacePy then
      '"' :: ' ' :: normGo f (rest.dropWhile isSpacePy)
    else '"' :: normGo f rest
  | f + 1, c :: rest => c :: normGo f rest

/-- Model of the re.sub call collapsing a line break that directly follows
a quote character (together with the surrounding whitespace) into a single
space. -/
def normalizeNewlines (s : String) : String := ⟨normGo s.data.length s.data⟩

/-- Return value of extract_organizations_and_summary: the two fields read
from the parsed response with their defaults. -/
structure ExtractResult where
  resume_article : Json
  organisations : Json

/-- The empty fallback result. -/
def emptyResult : ExtractResult :=
  { resume_article := Json.str "", organisations := Json.arr [] }

/-- Embedding of the parsing part of extract_organizations_and_summary,
from the response text onward.  Fences are stripped first; a first parse
failure triggers the normalization pass and exactly one retry; a second
failure yields the empty result and appends the offending (normalized)
response text to the debug side channel, returned as the second component.
A parse that succeeds with a non-object value makes the attribute accesses
raise, which the outer handler turns into the empty result without a side
channel entry. -/
def extract_organizations_and_summary (response_text : String) :
    ExtractResult × Option String :=
  let t := stripFences response_text
  match json_loads t with
  | some (Json.obj fields) =>
    ({ resume_article := objGetD fields "resume_article" (Json.str ""),
       organisations := objGetD fields "organisations" (Json.arr []) }, none)
  | some _ => (emptyResult, none)
  | none =>
    let t2 := normalizeNewlines t
    match json_loads t2 with
    | some (Json.obj fields) =>
      ({ resume_article := objGetD fields "resume_article" (Json.str ""),
         organisations := objGetD fields "organisations" (Json.arr []) }, none)
    | some _ => (emptyResult, none)
    | none => (emptyResult, some t2)

/-- A response wrapped in code fences whose embedded line break sits in the
middle of a string value (not adjacent to a quote). -/
def badResponse : String :=
  "```json\n\x7b\"resume_article\": \"a\nb\", \"organisations\": []\x7d\n```"

/-- A response wrapped in code fences whose embedded line break directly
follows the opening quote of a string value. -/
def goodResponse : String :=
  "```json\n\x7b\"resume_article\": \"\n  hello\", \"organisations\": []\x7d\n```"

/-- C1 counterexample: a fence-wrapped response with an embedded line break
in the middle of a string value is not repaired by the normalization pass
(the substituted pattern requires the quote character immediately before
the whitespace run), so both parses fail and the record degrades to the
empty result with the offending text persisted, contradicting the claim
that such a response yields a valid parsed result after the retry. -/
theorem resilient_parse_counterexample :
    strStartsWith (pyStrip badResponse) "```json" = true ∧
    json_loads (stripFences badResponse) = none ∧
    normalizeNewlines (stripFences badResponse) = stripFences badResponse ∧
    json_loads (normalizeNewlines (stripFences badResponse)) = none ∧
    (extract_organizations_and_summary badResponse).1.resume_article =
      Json.str "" ∧
    (extract_organizations_and_summary badResponse).1.organisations =
      Json.arr [] ∧
    (extract_organizations_and_summary badResponse).2 =
      some (stripFences badResponse) :=
  ⟨rfl, rfl, rfl, rfl, rfl, rfl, rfl⟩

/-- C1 amended: fences are stripped before parsing; a successful first
parse is used directly; on a first failure the normalization pass is
applied and parsing retried exactly once; on a second failure the record
gets the empty summary and zero mentions without raising and the offending
normalized text is persisted to the side channel.  The normalization
repairs an embedded line break that directly follows a quote character (as
in goodResponse), while a line break elsewhere inside a string value is
not repaired. -/
theorem resilient_parse_retry (raw : String) :
    (∀ fields, json_loads (stripFences raw) = some (Json.obj fields) →
      extract_organizations_and_summary raw =
        ({ resume_article := objGetD fields "resume_article" (Json.str ""),
           organisations := objGetD fields "organisations" (Json.arr []) },
         none)) ∧
    (json_loads (stripFences raw) = none →
      ∀ fields,
        json_loads (normalizeNewlines (stripFences raw)) =
          some (Json.obj fields) →
        extract_organizations_and_summary raw =
          ({ resume_article := objGetD fields "resume_article" (Json.str ""),
             organisations := objGetD fields "organisations" (Json.arr []) },
           none)) ∧
    (json_loads (stripFences raw) = none →
      json_loads (normalizeNewlines (stripFences raw)) = none →
      extract_organizations_and_summary raw =
        (emptyResult, some (normalizeNewlines (stripFences raw)))) ∧
    (extract_organizations_and_summary goodResponse).1.resume_article =
      Json.str " hello" ∧
    (extract_organizations_and_summary goodResponse).2 = none := by
  refine ⟨?_, ?_, ?_, rfl, rfl⟩
  · intro fields h
    simp only [extract_organizations_and_summary, h]
  · intro h1 fields h2
    simp only [extract_organizations_and_summary, h1, h2]
  · intro h1 h2
    simp only [extract_organizations_and_summary, h1, h2]

theorem resilient_parse_retry_witness :
    json_loads (stripFences goodResponse) = none ∧
    extract_organizations_and_summary goodResponse =
      ({ resume_article := objGetD
           [("resume_article", Json.str " hello"), ("organisations", Json.arr [])]
           "resume_article" (Json.str ""),
         organisations := objGetD
           [("resume_article", Json.str " hello"), ("organisations", Json.arr [])]
           "organisations" (Json.arr []) },
       none) :=
  ⟨rfl, (resilient_parse_retry goodResponse).2.1 rfl
    [("resume_article", Json.str " hello"), ("organisations", Json.arr [])] rfl⟩

/-! ### Aggregation -/

/-- One organization mention as consumed by the aggregation (the fields the
code reads from each organisation entry; citation and resume are read with
a default). -/
structure OrgData where
  nom : String
  type : String
  action : String
  enjeu : String
  citation : Option String
  resume : Option String
deriving DecidableEq, Repr

/-- The article sub-dictionary of one per-article extraction result. -/
structure ArticleInfo where
  titre : String
  source : String
  url : String
  signal : String
  resume : String
deriving DecidableEq, Repr

/-- One per-article extraction result handed to the aggregation. -/
structure Extraction where
  article : ArticleInfo
  organisations : List OrgData
deriving DecidableEq, Repr

/-- One entry appended to the articles list of an organization. -/
structure MentionEntry where
  titre : String
  source : String
  url : String
  signal : String
  action : String
  enjeu : String
  citation : String
  resume : String
deriving DecidableEq, Repr

/-- The entry built from one article and one of its organisation records. -/
def mkEntry (art : ArticleInfo) (o : OrgData) : MentionEntry :=
  { titre := art.titre, source := art.source, url := art.url,
    signal := art.signal, action := o.action, enjeu := o.enjeu,
    citation := o.citation.getD "", resume := o.resume.getD "" }

/-- Per-name accumulator of the defaultdict: mention counter, ordered
articles list, and the three sets, modelled as first-insertion-ordered
duplicate-free lists. -/
structure OrgAcc where
  mentions : Nat
  articles : List MentionEntry
  enjeux : List String
  signaux : List String
  types : List String
deriving DecidableEq, Repr

/-- Set insertion preserving first-insertion order. -/
def addToSet (s : List String) (x : String) : List String :=
  if x ∈ s then s else s ++ [x]

/-- The default accumulator of the defaultdict. -/
def emptyAcc : OrgAcc :=
  { mentions := 0, articles := [], enjeux := [], signaux := [], types := [] }

/-- One mention folded into an accumulator. -/
def updateAcc (acc : OrgAcc) (art : ArticleInfo) (o : OrgData) : OrgAcc :=
  { mentions := acc.mentions + 1
    articles := acc.articles ++ [mkEntry art o]
    enjeux := addToSet acc.enjeux o.enjeu
    signaux := addToSet acc.signaux art.signal
    types := addToSet acc.types o.type }

/-- One mention folded into the dictionary: dict keys keep insertion order,
a missing key starts from the default accumulator. -/
def updateDict : List (String × OrgAcc) → ArticleInfo → OrgData →
    List (String × OrgAcc)
  | [], art, o => [(o.nom, updateAcc emptyAcc art o)]
  | (k, acc) :: rest, art, o =>
    if k = o.nom then (k, updateAcc acc art o) :: rest
    else (k, acc) :: updateDict rest art o

/-- The dictionary built by the double loop of aggregate_organizations. -/
def buildDict (all_extractions : List Extraction) : List (String × OrgAcc) :=
  all_extractions.foldl
    (fun d e => e.organisations.foldl (fun d2 o => updateDict d2 e.article o) d) []

/-- One organization of the final output list. -/
structure OrgOut where
  nom : String
  type : String
  mentions : Nat
  articles : List MentionEntry
  enjeux_principaux : List String
  signaux : List String
deriving DecidableEq, Repr

/-- The aggregate type label: the single observed type when unanimous, the
comma-joined distinct types otherwise. -/
def joinTypes : List String → String
  | [t] => t
  | ts => String.intercalate ", " ts

/-- Conversion of one dictionary entry to its output record. -/
def toOrgOut (p : String × OrgAcc) : OrgOut :=
  { nom := p.1, type := joinTypes p.2.types, mentions := p.2.mentions,
    articles := p.2.articles, enjeux_principaux := p.2.enjeux,
    signaux := p.2.signaux }

/-- Descending-mentions preorder used by the final sort. -/
def mentionsGe (a b : OrgOut) : Prop := b.mentions ≤ a.mentions

instance : DecidableRel mentionsGe :=
  fun a b => inferInstanceAs (Decidable (b.mentions ≤ a.mentions))

instance : IsTotal OrgOut mentionsGe :=
  ⟨fun a b => le_total b.mentions a.mentions⟩

instance : IsTrans OrgOut mentionsGe :=
  ⟨fun _ _ _ h1 h2 => le_trans h2 h1⟩

/-- Embedding of aggregate_organizations: fold every mention into the
dictionary, convert, and sort by descending mention count with the stable
sort of the Python runtime (the surrounding output object only wraps this
list). -/
def aggregate_organizations (all_extractions : List Extraction) : List OrgOut :=
  List.insertionSort mentionsGe ((buildDict all_extractions).map toOrgOut)

/-! ### Characterization of the aggregation dictionary -/

/-- Every mention across all extraction results, as (article, organisation)
pairs in processing order. -/
def pairs (exts : List Extraction) : List (ArticleInfo × OrgData) :=
  exts.flatMap (fun e => e.organisations.map (fun o => (e.article, o)))

/-- The dictionary as a fold over the flattened mention pairs. -/
def dictOfPairs (ps : List (ArticleInfo × OrgData)) : List (String × OrgAcc) :=
  ps.foldl (fun d p => updateDict d p.1 p.2) []

/-- The accumulator a name ends with: its matching mentions folded in
processing order. -/
def accFor (nom : String) (ps : List (ArticleInfo × OrgData)) : OrgAcc :=
  (ps.filter (fun p => p.2.nom == nom)).foldl
    (fun acc p => updateAcc acc p.1 p.2) emptyAcc

/-- The dictionary keys: organisation names in first-appearance order. -/
def keysOf (ps : List (ArticleInfo × OrgData)) : List String :=
  ps.foldl (fun ks p => addToSet ks p.2.nom) []

theorem buildDict_eq_dictOfPairs (exts : List Extraction) :
    buildDict exts = dictOfPairs (pairs exts) := by
  suffices h : ∀ (exts : List Extraction) (d : List (String × OrgAcc)),
      exts.foldl (fun d e => e.organisations.foldl
        (fun d2 o => updateDict d2 e.article o) d) d =
      (pairs exts).foldl (fun d p => updateDict d p.1 p.2) d from
    h exts []
  intro exts
  induction exts with
  | nil => intro d; rfl
  | cons e rest ih =>
    intro d
    have hp : pairs (e :: rest) =
        (e.organisations.map (fun o => (e.article, o))) ++ pairs rest := by
      simp [pairs]
    rw [List.foldl_cons, ih, hp, List.foldl_append, List.foldl_map]

theorem mem_addToSet (ks : List String) (x n : String) :
    n ∈ addToSet ks x ↔ n ∈ ks ∨ n = x := by
  unfold addToSet
  by_cases h : x ∈ ks
  · simp only [if_pos h]
    constructor
    · exact Or.inl
    · rintro (hn | rfl)
      · exact hn
      · exact h
  · simp [if_neg h]

theorem addToSet_nodup (ks : List String) (x : String) (h : ks.Nodup) :
    (addToSet ks x).Nodup := by
  unfold addToSet
  by_cases hx : x ∈ ks
  · simpa [if_pos hx] using h
  · rw [if_neg hx]
    exact h.append (List.nodup_singleton x) (by simpa using hx)

theorem foldl_addToSet_mem (l : List (ArticleInfo × OrgData)) :
    ∀ (ks : List String) (n : String),
      n ∈ l.foldl (fun ks p => addToSet ks p.2.nom) ks ↔
        n ∈ ks ∨ ∃ p ∈ l, p.2.nom = n := by
  induction l with
  | nil => intro ks n; simp
  | cons q rest ih =>
    intro ks n
    rw [List.foldl_cons, ih, mem_addToSet]
    constructor
    · rintro ((hks | rfl) | ⟨p, hp, hn⟩)
      · exact Or.inl hks
      · exact Or.inr ⟨q, List.mem_cons_self q rest, rfl⟩
      · exact Or.inr ⟨p, List.mem_cons_of_mem q hp, hn⟩
    · rintro (hks | ⟨p, hp, hn⟩)
      · exact Or.inl (Or.inl hks)
      · rcases List.mem_cons.mp hp with rfl | hp2
        · exact Or.inl (Or.inr hn.symm)
        · exact Or.inr ⟨p, hp2, hn⟩

theorem foldl_addToSet_nodup (l : List (ArticleInfo × OrgData)) :
    ∀ ks : List String, ks.Nodup →
      (l.foldl (fun ks p => addToSet ks p.2.nom) ks).Nodup := by
  induction l with
  | nil => intro ks h; simpa using h
  | cons q rest ih =>
    intro ks h
    rw [List.foldl_cons]
    exact ih _ (addToSet_nodup ks q.2.nom h)

theorem keysOf_mem (ps : List (ArticleInfo × OrgData)) (n : String) :
    n ∈ keysOf ps ↔ ∃ p ∈ ps, p.2.nom = n := by
  rw [keysOf, foldl_addToSet_mem]
  simp

theorem keysOf_nodup (ps : List (ArticleInfo × OrgData)) : (keysOf ps).Nodup :=
  foldl_addToSet_nodup ps [] List.nodup_nil

theorem keysOf_append (ps : List (ArticleInfo × OrgData))
    (p : ArticleInfo × OrgData) :
    keysOf (ps ++ [p]) = addToSet (keysOf ps) p.2.nom := by
  rw [keysOf, List.foldl_append]
  rfl

theorem accFor_append (nom : String) (ps : List (ArticleInfo × OrgData))
    (p : ArticleInfo × OrgData) :
    accFor nom (ps ++ [p]) =
      if p.2.nom = nom then updateAcc (accFor nom ps) p.1 p.2
      else accFor nom ps := by
  unfold accFor
  rw [List.filter_append]
  by_cases h : p.2.nom = nom
  · have hf : List.filter (fun x => x.2.nom == nom) [p] = [p] := by simp [h]
    rw [hf, List.foldl_append, if_pos h]
    rfl
  · have hf : List.filter (fun x => x.2.nom == nom) [p] = [] := by simp [h]
    rw [hf, List.append_nil, if_neg h]

theorem accFor_of_not_mem (nom : String) (ps : List (ArticleInfo × OrgData))
    (h : ∀ p ∈ ps, p.2.nom ≠ nom) : accFor nom ps = emptyAcc := by
  unfold accFor
  rw [List.filter_eq_nil_iff.mpr (by intro p hp; simpa using h p hp)]
  rfl

theorem updateDict_map (art : ArticleInfo) (o : OrgData) :
    ∀ (ks : List String) (g : String → OrgAcc), ks.Nodup →
      updateDict (ks.map (fun n => (n, g n))) art o =
        if o.nom ∈ ks then
          ks.map (fun n =>
            (n, if n = o.nom then updateAcc (g n) art o else g n))
        else ks.map (fun n => (n, g n)) ++ [(o.nom, updateAcc emptyAcc art o)] := by
  intro ks
  induction ks with
  | nil => intro g _; simp [updateDict]
  | cons k ks ih =>
    intro g hnodup
    simp only [List.map_cons, updateDict]
    by_cases hk : k = o.nom
    · rw [if_pos hk, if_pos (by rw [hk]; exact List.mem_cons_self o.nom ks)]
      simp only [List.map_cons, if_pos hk]
      congr 1
      apply List.map_congr_left
      intro n hn
      have hne : ¬ n = o.nom := by
        intro he
        exact (List.nodup_cons.mp hnodup).1 (by rw [hk, ← he]; exact hn)
      rw [if_neg hne]
    · rw [if_neg hk, ih g (List.nodup_cons.mp hnodup).2]
      by_cases hmem : o.nom ∈ ks
      · rw [if_pos hmem, if_pos (List.mem_cons_of_mem k hmem)]
        rw [if_neg hk]
      · rw [if_neg hmem,
          if_neg (by simp only [List.mem_cons]; rintro (he | hm)
                     exacts [hk he.symm, hmem hm])]
        simp [List.cons_append]

theorem dictOfPairs_eq :
    ∀ ps : List (ArticleInfo × OrgData),
      dictOfPairs ps = (keysOf ps).map (fun n => (n, accFor n ps)) := by
  intro ps
  induction ps using List.reverseRecOn with
  | nil => rfl
  | append_singleton ps p ih =>
    have hstep : dictOfPairs (ps ++ [p]) = updateDict (dictOfPairs ps) p.1 p.2 := by
      rw [dictOfPairs, List.foldl_append]
      rfl
    rw [hstep, ih,
      updateDict_map p.1 p.2 (keysOf ps) _ (keysOf_nodup ps), keysOf_append]
    by_cases hmem : p.2.nom ∈ keysOf ps
    · rw [if_pos hmem, addToSet, if_pos hmem]
      apply List.map_congr_left
      intro n hn
      rw [accFor_append]
      by_cases he : n = p.2.nom
      · rw [if_pos he, if_pos he.symm]
      · rw [if_neg he, if_neg (fun h => he h.symm)]
    · rw [if_neg hmem, addToSet, if_neg hmem, List.map_append]
      congr 1
      · apply List.map_congr_left
        intro n hn
        rw [accFor_append, if_neg (fun h => hmem (by rw [h]; exact hn))]
      · simp only [List.map_cons, List.map_nil]
        rw [accFor_append, if_pos rfl,
          accFor_of_not_mem p.2.nom ps
            (fun q hq he => hmem ((keysOf_mem ps p.2.nom).mpr ⟨q, hq, he⟩))]

theorem foldl_updateAcc (qs : List (ArticleInfo × OrgData)) :
    ∀ acc0 : OrgAcc,
      (qs.foldl (fun acc p => updateAcc acc p.1 p.2) acc0).mentions =
        acc0.mentions + qs.length ∧
      (qs.foldl (fun acc p => updateAcc acc p.1 p.2) acc0).articles =
        acc0.articles ++ qs.map (fun p => mkEntry p.1 p.2) := by
  induction qs with
  | nil => intro acc0; simp
  | cons q rest ih =>
    intro acc0
    have h := ih (updateAcc acc0 q.1 q.2)
    refine ⟨?_, ?_⟩
    · rw [List.foldl_cons, h.1]
      simp only [updateAcc, List.length_cons]
      omega
    · rw [List.foldl_cons, h.2]
      simp [updateAcc, List.append_assoc]

theorem accFor_spec (nom : String) (ps : List (ArticleInfo × OrgData)) :
    (accFor nom ps).mentions =
      (ps.filter (fun p => p.2.nom == nom)).length ∧
    (accFor nom ps).articles =
      (ps.filter (fun p => p.2.nom == nom)).map (fun p => mkEntry p.1 p.2) := by
  unfold accFor
  have h := foldl_updateAcc (ps.filter (fun p => p.2.nom == nom)) emptyAcc
  simpa [emptyAcc] using h

/-- C2 amended: for every Organization in the aggregated output,
mentionCount equals the length of its mentions list, and the mentions list
holds exactly one entry per OrganizationMention (article-mention pair) in
which that exact name string appeared, in processing order — a record that
mentions the same name several times contributes one entry per mention,
not one per record. -/
theorem aggregation_invariant (exts : List Extraction) (org : OrgOut)
    (h : org ∈ aggregate_organizations exts) :
    org.mentions = org.articles.length ∧
    org.articles = ((pairs exts).filter (fun p => p.2.nom == org.nom)).map
      (fun p => mkEntry p.1 p.2) := by
  have hmem : org ∈ (buildDict exts).map toOrgOut :=
    (List.perm_insertionSort mentionsGe ((buildDict exts).map toOrgOut)).mem_iff.mp h
  obtain ⟨entry, hentry, rfl⟩ := List.mem_map.mp hmem
  rw [buildDict_eq_dictOfPairs, dictOfPairs_eq] at hentry
  obtain ⟨n, _, heq⟩ := List.mem_map.mp hentry
  have hspec := accFor_spec n (pairs exts)
  rw [← heq]
  constructor
  · show (accFor n (pairs exts)).mentions = (accFor n (pairs exts)).articles.length
    rw [hspec.1, hspec.2, List.length_map]
  · show (accFor n (pairs exts)).articles =
      ((pairs exts).filter (fun p => p.2.nom == n)).map (fun p => mkEntry p.1 p.2)
    exact hspec.2

/-- An extraction result in which the same organisation name appears twice
for one article. -/
def dupExtraction : Extraction :=
  { article := { titre := "t1", source := "s1", url := "u1",
                 signal := "sig1", resume := "r1" },
    organisations :=
      [{ nom := "X", type := "ty", action := "a1", enjeu := "e1",
         citation := none, resume := none },
       { nom := "X", type := "ty", action := "a2", enjeu := "e2",
         citation := none, resume := none }] }

/-- C2 counterexample: with one record mentioning the same name twice, the
aggregated organization holds one mentions entry per mention (two), not one
per record containing the name (one), so the claim as stated fails. -/
theorem aggregation_per_record_counterexample :
    ¬ (∀ org ∈ aggregate_organizations [dupExtraction],
        org.mentions = org.articles.length ∧
        org.articles.length =
          ([dupExtraction].filter
            (fun e => e.organisations.any (fun o => o.nom == org.nom))).length) := by
  decide

/-- The single aggregated organization produced from dupExtraction. -/
def dupOut : OrgOut :=
  { nom := "X", type := "ty", mentions := 2,
    articles :=
      [{ titre := "t1", source := "s1", url := "u1", signal := "sig1",
         action := "a1", enjeu := "e1", citation := "", resume := "" },
       { titre := "t1", source := "s1", url := "u1", signal := "sig1",
         action := "a2", enjeu := "e2", citation := "", resume := "" }],
    enjeux_principaux := ["e1", "e2"], signaux := ["sig1"] }

theorem aggregation_invariant_witness :
    dupOut ∈ aggregate_organizations [dupExtraction] ∧
    dupOut.mentions = dupOut.articles.length ∧
    dupOut.articles = ((pairs [dupExtraction]).filter
      (fun p => p.2.nom == dupOut.nom)).map (fun p => mkEntry p.1 p.2) :=
  ⟨by decide,
   (aggregation_invariant [dupExtraction] dupOut (by decide)).1,
   (aggregation_invariant [dupExtraction] dupOut (by decide)).2⟩

/-! ### Order independence of the aggregation -/

/-- Single-mention extraction used in the permutation counterexample. -/
def extA : Extraction :=
  { article := { titre := "tA", source := "sA", url := "uA",
                 signal := "sigA", resume := "rA" },
    organisations := [{ nom := "A", type := "ty", action := "a", enjeu := "e",
                        citation := none, resume := none }] }

/-- Second single-mention extraction used in the permutation
counterexample. -/
def extB : Extraction :=
  { article := { titre := "tB", source := "sB", url := "uB",
                 signal := "sigB", resume := "rB" },
    organisations := [{ nom := "B", type := "ty", action := "a", enjeu := "e",
                        citation := none, resume := none }] }

/-- C8 counterexample: two permutations of the same extraction collection
produce differently ordered outputs, because organizations tied on
mentionCount keep first-appearance order, which follows the input order. -/
theorem order_independence_counterexample :
    List.Perm [extA, extB] [extB, extA] ∧
    aggregate_organizations [extA, extB] ≠
      aggregate_organizations [extB, extA] := by
  constructor
  · decide
  · decide

/-- C8 amended: the aggregation is independent of completion order up to
the ordering of ties: for any two permutations of the same collection of
extraction results, the outputs carry the same organizations with the same
mentionCounts (equal as multisets of name-count pairs), and both outputs
are sorted by descending mentionCount; the relative order of organizations
tied on mentionCount follows first appearance in the supplied order, so
the two output lists need not be identical. -/
theorem order_independence_amended (l1 l2 : List Extraction)
    (h : l1.Perm l2) :
    (((aggregate_organizations l1).map (fun o => (o.nom, o.mentions))).Perm
      ((aggregate_organizations l2).map (fun o => (o.nom, o.mentions)))) ∧
    List.Sorted mentionsGe (aggregate_organizations l1) ∧
    List.Sorted mentionsGe (aggregate_organizations l2) := by
  refine ⟨?_, List.sorted_insertionSort mentionsGe _,
    List.sorted_insertionSort mentionsGe _⟩
  have hp : (pairs l1).Perm (pairs l2) := h.flatMap_right _
  have hred : ∀ l : List Extraction,
      ((aggregate_organizations l).map (fun o => (o.nom, o.mentions))).Perm
        ((keysOf (pairs l)).map (fun n =>
          (n, ((pairs l).filter (fun p => p.2.nom == n)).length))) := by
    intro l
    have h1 : ((aggregate_organizations l).map
        (fun o => (o.nom, o.mentions))).Perm
        (((buildDict l).map toOrgOut).map (fun o => (o.nom, o.mentions))) :=
      (List.perm_insertionSort mentionsGe _).map _
    refine h1.trans ?_
    rw [buildDict_eq_dictOfPairs, dictOfPairs_eq, List.map_map, List.map_map]
    have heq2 :
        (keysOf (pairs l)).map
          (((fun o => (o.nom, o.mentions)) ∘ toOrgOut) ∘
            fun n => (n, accFor n (pairs l))) =
        (keysOf (pairs l)).map (fun n =>
          (n, ((pairs l).filter (fun p => p.2.nom == n)).length)) := by
      apply List.map_congr_left
      intro n _
      show (n, (accFor n (pairs l)).mentions) =
        (n, ((pairs l).filter (fun p => p.2.nom == n)).length)
      rw [(accFor_spec n (pairs l)).1]
    rw [heq2]
  refine (hred l1).trans (.trans ?_ (hred l2).symm)
  have hcnt : ∀ n : String,
      ((pairs l1).filter (fun p => p.2.nom == n)).length =
        ((pairs l2).filter (fun p => p.2.nom == n)).length :=
    fun n => (hp.filter _).length_eq
  have hkeys : (keysOf (pairs l1)).Perm (keysOf (pairs l2)) := by
    rw [List.perm_ext_iff_of_nodup (keysOf_nodup _) (keysOf_nodup _)]
    intro n
    rw [keysOf_mem, keysOf_mem]
    constructor
    · rintro ⟨p, hpm, hn⟩; exact ⟨p, hp.mem_iff.mp hpm, hn⟩
    · rintro ⟨p, hpm, hn⟩; exact ⟨p, hp.mem_iff.mpr hpm, hn⟩
  calc ((keysOf (pairs l1)).map (fun n =>
          (n, ((pairs l1).filter (fun p => p.2.nom == n)).length))).Perm
        ((keysOf (pairs l2)).map (fun n =>
          (n, ((pairs l1).filter (fun p => p.2.nom == n)).length))) := hkeys.map _
    _ = (keysOf (pairs l2)).map (fun n =>
          (n, ((pairs l2).filter (fun p => p.2.nom == n)).length)) := by
        apply List.map_congr_left
        intro n _
        rw [hcnt n]

theorem order_independence_amended_witness :
    (((aggregate_organizations [extA, extB]).map
        (fun o => (o.nom, o.mentions))).Perm
      ((aggregate_organizations [extB, extA]).map
        (fun o => (o.nom, o.mentions)))) ∧
    List.Sorted mentionsGe (aggregate_organizations [extA, extB]) :=
  ⟨(order_independence_amended [extA, extB] [extB, extA] (by decide)).1,
   (order_independence_amended [extA, extB] [extB, extA] (by decide)).2.1⟩

end ExtractOrgs

namespace QualifyLeads

/-!
Embedding of processors/google_news/5_qualify_leads.py: per-organization
qualification with resilient parsing and no retry, the lead filter, and the
final descending-score sort.
-/

/-- The aggregated-organization fields the qualifier reads. -/
structure OrgIn where
  nom : String
  type : String
  mentions : Nat
  articles : List ExtractOrgs.MentionEntry
deriving DecidableEq, Repr

/-- Embedding of qualify_organization from the service call onward: a
raising call yields no verdict; otherwise fences are stripped and the text
parsed once, a parse failure yielding no verdict (no retry here). -/
def qualify_organization (outcome : SvcOutcome) : Option Json :=
  match outcome with
  | .failure => none
  | .reply text => json_loads (stripFences text)

/-- One qualified lead of the output: the organization together with the
parsed verdict. -/
structure Lead where
  organisation : OrgIn
  qualification : Json

/-- The integer behind the score member of a verdict, used by the final
sort; every lead admitted by process_organization carries a numeric
score member, so the fallback 0 is never reached on the ok path. -/
def scoreOf (q : Json) : Int :=
  match q with
  | .obj fields =>
    match objGet fields "score" with
    | some (Json.num n) => n
    | _ => 0
  | _ => 0

/-- Embedding of process_organization.  A missing verdict yields no lead.
A falsy verdict (such as an empty object) yields no lead without touching
its members.  A truthy non-object verdict makes the member access raise,
modelled as the error outcome; on the lead path the logging statement reads
the score and raison members, a missing one raising, and a non-numeric
score breaking the later sort, both modelled as the error outcome. -/
def process_organization (org : OrgIn) (outcome : SvcOutcome) :
    Except Unit (Option Lead) :=
  match qualify_organization outcome with
  | none => .ok none
  | some q =>
    if truthy q then
      match q with
      | Json.obj fields =>
        if truthy (objGetD fields "lead_potentiel" (Json.bool false)) then
          match objGet fields "score", objGet fields "raison" with
          | some (Json.num _), some _ =>
            .ok (some { organisation := org, qualification := q })
          | _, _ => .error ()
        else .ok none
      | _ => .error ()
    else .ok none

/-- Result collection of the worker loop in main: append each returned
lead, propagate a worker exception (future.result re-raises it). -/
def collectLeads : List (OrgIn × SvcOutcome) → Except Unit (List Lead)
  | [] => .ok []
  | p :: rest =>
    match process_organization p.1 p.2 with
    | .error e => .error e
    | .ok none => collectLeads rest
    | .ok (some lead) =>
      match collectLeads rest with
      | .error e => .error e
      | .ok ls => .ok (lead :: ls)

/-- Descending-score preorder used by the final sort. -/
def scoreGe (a b : Lead) : Prop :=
  scoreOf b.qualification ≤ scoreOf a.qualification

instance : DecidableRel scoreGe :=
  fun a b =>
    inferInstanceAs (Decidable (scoreOf b.qualification ≤ scoreOf a.qualification))

instance : IsTotal Lead scoreGe :=
  ⟨fun a b => le_total (scoreOf b.qualification) (scoreOf a.qualification)⟩

instance : IsTrans Lead scoreGe :=
  ⟨fun _ _ _ h1 h2 => le_trans h2 h1⟩

/-- Embedding of the main of 5_qualify_leads.py from the collected results
onward: sort the qualified leads by descending score with the stable sort
of the Python runtime. -/
def qualify_main (orgs : List (OrgIn × SvcOutcome)) : Except Unit (List Lead) :=
  match collectLeads orgs with
  | .error e => .error e
  | .ok ls => .ok (List.insertionSort scoreGe ls)

theorem process_ok_some (org : OrgIn) (oc : SvcOutcome) (lead : Lead)
    (h : process_organization org oc = .ok (some lead)) :
    lead.organisation = org ∧
    ∃ text fields, oc = .reply text ∧
      json_loads (stripFences text) = some (Json.obj fields) ∧
      truthy (objGetD fields "lead_potentiel" (Json.bool false)) = true ∧
      lead.qualification = Json.obj fields := by
  cases oc with
  | failure => simp [process_organization, qualify_organization] at h
  | reply text =>
    simp only [process_organization, qualify_organization] at h
    cases hj : json_loads (stripFences text) with
    | none => rw [hj] at h; simp at h
    | some q =>
      rw [hj] at h
      dsimp only [] at h
      by_cases ht : truthy q
      · rw [if_pos ht] at h
        cases q with
        | obj fields =>
          dsimp only [] at h
          by_cases hl : truthy (objGetD fields "lead_potentiel" (Json.bool false))
          · rw [if_pos hl] at h
            cases hs : objGet fields "score" with
            | none => rw [hs] at h; simp at h
            | some v =>
              rw [hs] at h
              cases hr : objGet fields "raison" with
              | none =>
                rw [hr] at h
                cases v <;> simp at h
              | some w =>
                rw [hr] at h
                cases v with
                | num n =>
                  have hlead : lead =
                      { organisation := org, qualification := Json.obj fields } := by
                    have := h
                    injection this with h2
                    injection h2 with h3
                    exact h3.symm
                  subst hlead
                  exact ⟨rfl, text, fields, rfl, hj, hl, rfl⟩
                | null => simp at h
                | bool b => simp at h
                | str s => simp at h
                | arr items => simp at h
                | obj fs => simp at h
          · rw [if_neg hl] at h
            simp at h
        | null => simp at h
        | bool b => simp at h
        | num n => simp at h
        | str s => simp at h
        | arr items => simp at h
      · rw [if_neg ht] at h
        simp at h

theorem collect_mem :
    ∀ (orgs : List (OrgIn × SvcOutcome)) (ls : List Lead),
      collectLeads orgs = .ok ls → ∀ lead ∈ ls,
        ∃ p ∈ orgs, process_organization p.1 p.2 = .ok (some lead) := by
  intro orgs
  induction orgs with
  | nil =>
    intro ls h lead hl
    simp only [collectLeads, Except.ok.injEq] at h
    subst h
    simp at hl
  | cons p rest ih =>
    intro ls h lead hl
    cases hp : process_organization p.1 p.2 with
    | error e =>
      simp only [collectLeads, hp] at h
      exact Except.noConfusion h
    | ok olead =>
      cases olead with
      | none =>
        simp only [collectLeads, hp] at h
        obtain ⟨q, hq, hqq⟩ := ih ls h lead hl
        exact ⟨q, List.mem_cons_of_mem p hq, hqq⟩
      | some lead0 =>
        simp only [collectLeads, hp] at h
        cases hr : collectLeads rest with
        | error e => rw [hr] at h; simp at h
        | ok ls0 =>
          rw [hr] at h
          simp only [Except.ok.injEq] at h
          subst h
          rcases List.mem_cons.mp hl with rfl | hl2
          · exact ⟨p, List.mem_cons_self p rest, hp⟩
          · obtain ⟨q, hq, hqq⟩ := ih ls0 hr lead hl2
            exact ⟨q, List.mem_cons_of_mem p hq, hqq⟩

/-- C6: on the ok path of the qualifier, every output lead stems from an
organization whose service call returned a response that parsed to an
object with a truthy lead verdict (an organization whose call raised or
whose response failed to parse is dropped, never defaulted to qualified),
the output is sorted by descending score, and an organization all of whose
occurrences failed or were unparsable never appears in the output. -/
theorem failed_orgs_dropped (orgs : List (OrgIn × SvcOutcome)) (out : List Lead)
    (h : qualify_main orgs = .ok out) :
    (∀ lead ∈ out, ∃ p ∈ orgs, lead.organisation = p.1 ∧
      ∃ text fields, p.2 = .reply text ∧
        json_loads (stripFences text) = some (Json.obj fields) ∧
        truthy (objGetD fields "lead_potentiel" (Json.bool false)) = true ∧
        lead.qualification = Json.obj fields) ∧
    List.Sorted scoreGe out ∧
    (∀ o : OrgIn,
      (∀ p ∈ orgs, p.1 = o →
        (p.2 = .failure ∨ ∃ text, p.2 = .reply text ∧
          json_loads (stripFences text) = none)) →
      ∀ lead ∈ out, lead.organisation ≠ o) := by
  have hcol : ∃ ls, collectLeads orgs = .ok ls ∧
      out = List.insertionSort scoreGe ls := by
    unfold qualify_main at h
    cases hc : collectLeads orgs with
    | error e => rw [hc] at h; simp at h
    | ok ls =>
      rw [hc] at h
      simp only [Except.ok.injEq] at h
      exact ⟨ls, rfl, h.symm⟩
  obtain ⟨ls, hc, rfl⟩ := hcol
  have hmem : ∀ lead ∈ List.insertionSort scoreGe ls, lead ∈ ls :=
    fun lead hl => (List.perm_insertionSort scoreGe ls).mem_iff.mp hl
  refine ⟨?_, List.sorted_insertionSort scoreGe ls, ?_⟩
  · intro lead hl
    obtain ⟨p, hp, hproc⟩ := collect_mem orgs ls hc lead (hmem lead hl)
    have hs := process_ok_some p.1 p.2 lead hproc
    exact ⟨p, hp, hs.1, hs.2⟩
  · intro o ho lead hl hfeq
    obtain ⟨p, hp, hproc⟩ := collect_mem orgs ls hc lead (hmem lead hl)
    have hs := process_ok_some p.1 p.2 lead hproc
    obtain ⟨text, fields, hoc, hjl, _, _⟩ := hs.2
    have hpo : p.1 = o := by rw [← hs.1]; exact hfeq
    rcases ho p hp hpo with hfail | ⟨t2, ht2, hjn⟩
    · rw [hoc] at hfail
      exact SvcOutcome.noConfusion hfail
    · rw [hoc] at ht2
      injection ht2 with h3
      rw [← h3] at hjn
      rw [hjn] at hjl
      exact Option.noConfusion hjl

/-- First organization of the qualifier witness. -/
def orgA : OrgIn := { nom := "OrgA", type := "syndicat", mentions := 2, articles := [] }

/-- Second organization of the qualifier witness, whose call raises. -/
def orgB : OrgIn := { nom := "OrgB", type := "obnl", mentions := 1, articles := [] }

/-- A fence-wrapped verdict accepting orgA as a lead with score 4. -/
def goodVerdict : String :=
  "```json\n\x7b\"lead_potentiel\": true, \"score\": 4, \"raison\": \"r\"\x7d\n```"

/-- The lead expected for orgA. -/
def demoLead : Lead :=
  { organisation := orgA,
    qualification := Json.obj
      [("lead_potentiel", Json.bool true), ("score", Json.num 4),
       ("raison", Json.str "r")] }

/-- Input of the qualifier witness. -/
def demoOrgs : List (OrgIn × SvcOutcome) :=
  [(orgA, .reply goodVerdict), (orgB, .failure)]

theorem failed_orgs_dropped_witness :
    qualify_main demoOrgs = .ok [demoLead] ∧
    List.Sorted scoreGe [demoLead] ∧
    demoLead.organisation ≠ orgB :=
  ⟨rfl,
   (failed_orgs_dropped demoOrgs [demoLead] rfl).2.1,
   (failed_orgs_dropped demoOrgs [demoLead] rfl).2.2 orgB (by
     intro p hp
     rcases List.mem_cons.mp hp with rfl | hp2
     · intro hpo; exact absurd hpo (by decide)
     · rcases List.mem_cons.mp hp2 with rfl | hp3
       · intro _; exact Or.inl rfl
       · exact absurd hp3 (List.not_mem_nil p))
     demoLead (List.mem_cons_self demoLead [])⟩

end QualifyLeads
